import Mathlib

/-!
Shallow embedding of the deferred-reference processing engine
(hotspot `referenceProcessor.cpp`): discovered-queue balancing, discovered-list
processing phases, the discovery protocol, the soft-reference master clock and
the MT-degree adjuster, together with theorems checking the specification's
claims about them.
-/

namespace RefProc

/-! ### DiscoveredList queues and `ReferenceProcessor::balance_queues`

A discovered list is modelled as the Lean list of its entries (head first);
the C++ length counter coincides with the list length by the DiscoveredList
invariant.  A category's queues `_discovered_refs[0 .. _max_num_queues)` are a
`List (List α)`; the processing degree `_num_queues` is the parameter `n`. -/

/-- Length of queue `i` (`ref_lists[i].length()`); out-of-range queues read 0. -/
def lenq {α : Type} (qs : List (List α)) (i : Nat) : Nat :=
  (qs.getD i []).length

/-- `total_refs`: sum of all queue lengths of a category. -/
def totalRefs {α : Type} (qs : List (List α)) : Nat :=
  (qs.map List.length).sum

/-- Sum of the lengths of the first `n` queues. -/
def sumLen {α : Type} (qs : List (List α)) : Nat → Nat
  | 0 => 0
  | n + 1 => sumLen qs n + lenq qs n

/-- Detach the first `k` entries from queue `fi` and splice them onto the head
of queue `ti` (the chain move inside `balance_queues`: walk `k` links from
`move_head`, link `move_tail` to the destination head or self-loop it, then
update both heads and lengths). -/
def moveRefs {α : Type} (qs : List (List α)) (fi ti k : Nat) : List (List α) :=
  (qs.set ti ((qs.getD fi []).take k ++ qs.getD ti [])).set fi ((qs.getD fi []).drop k)

/-- Inner `while (remaining_to_move > 0)` loop of `balance_queues` for one
source queue `fi`: fill destination queues left to right, skipping any already
at or above `avg`, moving `MIN2(remaining, avg - to_len)` entries at a time.
The C++ `assert(to_idx < _num_queues)` is modelled as part of the loop guard;
the proofs show it never fails.  Returns the queues and the final `to_idx`. -/
def balanceFrom {α : Type} (avg n fi : Nat) (qs : List (List α)) (ti rem : Nat) :
    List (List α) × Nat :=
  if h : 0 < rem ∧ ti < n then
    if h2 : avg ≤ lenq qs ti then
      balanceFrom avg n fi qs (ti + 1) rem
    else
      let k := min rem (avg - lenq qs ti)
      balanceFrom avg n fi (moveRefs qs fi ti k) ti (rem - k)
  else
    (qs, ti)
termination_by (rem, n - ti)
decreasing_by
  · exact Prod.Lex.right rem (by omega)
  · exact Prod.Lex.left _ _ (by omega)

/-- Outer `for (from_idx = 0; from_idx < _max_num_queues; from_idx++)` loop of
`balance_queues`; `fuel` counts the remaining source indices, so the loop is
entered with `fuel = _max_num_queues` and `fi = 0`.  For sources beyond the
processing degree everything moves, otherwise only the excess above `avg`. -/
def balanceOuter {α : Type} (avg n : Nat) :
    Nat → List (List α) → Nat → Nat → List (List α) × Nat
  | 0, qs, _, ti => (qs, ti)
  | fuel + 1, qs, fi, ti =>
    let fromLen := lenq qs fi
    let rem := if n ≤ fi then fromLen else fromLen - avg
    let p := balanceFrom avg n fi qs ti rem
    balanceOuter avg n fuel p.1 (fi + 1) p.2

/-- `ReferenceProcessor::balance_queues`: compute `avg_refs = total / n + 1`
and redistribute all entries onto the first `n` queues. -/
def balance_queues {α : Type} (n : Nat) (qs : List (List α)) : List (List α) :=
  let total := totalRefs qs
  let avg := total / n + 1
  (balanceOuter avg n qs.length qs 0 0).1

/-! ### Reference categories, discovered-list entries and list processing

A reference object on a discovered list is modelled by its identity, its
`referent` field (`none` = cleared/null) and whether its `next` field
self-loops (the Final "already delivered to finalization" marker).  The
external liveness predicate `is_alive` is applied to referent identities. -/

/-- The four reference categories (`ReferenceType` without `REF_NONE`). -/
inductive RefType
  | soft
  | weak
  | final
  | phantom
deriving DecidableEq, Repr

/-- A java.lang.ref.Reference object as seen by the processing phases. -/
structure RefNode where
  rid : Nat
  referent : Option Nat
  nextSelf : Bool
deriving DecidableEq, Repr

/-- The iterator walk inside `process_discovered_list_work`: per entry, a null
referent is dropped (`remove`), a live referent is dropped and kept alive
(`remove` + `make_referent_alive`), and otherwise, when
`do_enqueue_and_clear` holds, the entry is cleared and spliced onto the local
enqueue chain; when it does not hold the entry stays untouched on the list.
Returns (surviving chain in iteration order, keep-alive log, removed count). -/
def processLoop (is_alive : Nat → Bool) (doEnq : Bool) :
    List RefNode → List RefNode × List Nat × Nat
  | [] => ([], [], 0)
  | r :: rest =>
    match r.referent with
    | none =>
      let p := processLoop is_alive doEnq rest
      (p.1, p.2.1, p.2.2 + 1)
    | some v =>
      if is_alive v then
        let p := processLoop is_alive doEnq rest
        (p.1, v :: p.2.1, p.2.2 + 1)
      else
        let p := processLoop is_alive doEnq rest
        if doEnq then ({ r with referent := none } :: p.1, p.2.1, p.2.2)
        else (r :: p.1, p.2.1, p.2.2)

/-- `ReferenceProcessor::process_discovered_list_work`: run the iterator walk;
when `do_enqueue_and_clear` holds, `complete_enqueue` pushes the local chain
onto the pending list in one swap and the discovered list is cleared;
otherwise the surviving entries remain on the discovered list.  Returns
(discovered list after, pending list after, keep-alive log, removed count). -/
def process_discovered_list_work (is_alive : Nat → Bool) (doEnq : Bool)
    (refs pending : List RefNode) :
    List RefNode × List RefNode × List Nat × Nat :=
  let p := processLoop is_alive doEnq refs
  if doEnq then ([], p.1 ++ pending, p.2.1, p.2.2)
  else (p.1, pending, p.2.1, p.2.2)

/-- `RefProcTask::process_discovered_list`: only Final refs are not enqueued
and cleared in the SoftWeakFinal phase (`do_enqueue_and_clear =
(ref_type != REF_FINAL)`). -/
def process_discovered_list (rt : RefType) (is_alive : Nat → Bool)
    (refs pending : List RefNode) :
    List RefNode × List RefNode × List (Nat) × Nat :=
  process_discovered_list_work is_alive (!(rt == RefType.final)) refs pending

/-- The loop of `process_final_keep_alive_work`: for each entry,
`make_referent_alive` (log the referent field), self-loop `next`, `enqueue`.
Returns (enqueue chain in iteration order, keep-alive log). -/
def finalKeepAliveLoop : List RefNode → List RefNode × List (Option Nat)
  | [] => ([], [])
  | r :: rest =>
    let p := finalKeepAliveLoop rest
    ({ r with nextSelf := true } :: p.1, r.referent :: p.2)

/-- `ReferenceProcessor::process_final_keep_alive_work`: walk the Final list,
keep every referent alive, self-loop `next`, enqueue everything, then
`complete_enqueue` and clear the list; nothing is ever removed.
Returns (discovered list after, pending after, keep-alive log, removed). -/
def process_final_keep_alive_work (refs pending : List RefNode) :
    List RefNode × List RefNode × List (Option Nat) × Nat :=
  let p := finalKeepAliveLoop refs
  ([], p.1 ++ pending, p.2, 0)

/-! ### The discovery protocol (`ReferenceProcessor::discover_reference`) -/

/-- The three Reference fields touched by discovery. -/
structure RefFields where
  referent : Option Nat
  discovered : Option Nat
  next_f : Option Nat

/-- Configuration of the reference processor relevant to discovery: the
`RegisterReferences` flag, the discovery threading mode, the
subject-to-discovery predicate, the optional `is_alive_non_header` closure
(applied to the referent field) and the soft-reference clearing policy with
the current clock folded in. -/
structure DiscoverParams where
  registerReferences : Bool
  discoveryIsMT : Bool
  subject : Nat → Bool
  isAliveNonHeader : Option (Option Nat → Bool)
  shouldClear : Nat → Bool

/-- Mutable state touched by discovery: the `_discovering_refs` flag, the
heap (fields of every reference object) and the selected discovered list
(entries head first). -/
structure DiscoverState where
  discoveringRefs : Bool
  heap : Nat → RefFields
  queue : List Nat

/-- Pointwise heap update. -/
def updateHeap (h : Nat → RefFields) (i : Nat) (f : RefFields) : Nat → RefFields :=
  fun j => if j = i then f else h j

/-- `ReferenceProcessor::set_discovered_link_mt`: one atomic
compare-and-exchange of the `discovered` field against null; returns the new
field value and whether this thread won (`retest == nullptr`). -/
def set_discovered_link_mt (cur : Option Nat) (nextDiscovered : Nat) :
    Option Nat × Bool :=
  match cur with
  | none => (some nextDiscovered, true)
  | some x => (some x, false)

/-- `ReferenceProcessor::set_discovered_link_st`: a plain store, always
successful. -/
def set_discovered_link_st (cur : Option Nat) (nextDiscovered : Nat) :
    Option Nat × Bool :=
  (some nextDiscovered, true)

/-- `ReferenceProcessor::set_discovered_link`. -/
def set_discovered_link (mt : Bool) (cur : Option Nat) (nd : Nat) :
    Option Nat × Bool :=
  if mt then set_discovered_link_mt cur nd else set_discovered_link_st cur nd

/-- `ReferenceProcessor::add_to_discovered_list`: link the object's
`discovered` field to the current head (or itself when the list is empty) and,
if the link was installed, push the object as the new head. -/
def add_to_discovered_list (mt : Bool) (queue : List Nat) (obj : Nat)
    (cur : Option Nat) : List Nat × Option Nat :=
  let nextDiscovered := match queue.head? with
    | some hd => hd
    | none => obj
  let r := set_discovered_link mt cur nextDiscovered
  if r.2 then (obj :: queue, r.1) else (queue, r.1)

/-- `ReferenceProcessor::discover_reference`, with its filter cascade in
source order; returns the new state and the discovered/not-discovered result.
The already-discovered branch (non-null `discovered` field) returns success
without re-adding. -/
def discover_reference (p : DiscoverParams) (st : DiscoverState) (obj : Nat)
    (rt : RefType) : DiscoverState × Bool :=
  if !st.discoveringRefs || !p.registerReferences then (st, false)
  else if (rt == RefType.final) && (st.heap obj).next_f.isSome then (st, false)
  else if !(p.subject obj) then (st, false)
  else if (match p.isAliveNonHeader with
           | some isAlive => isAlive (st.heap obj).referent
           | none => false) then (st, false)
  else if (rt == RefType.soft) && !(p.shouldClear obj) then (st, false)
  else if (st.heap obj).discovered.isSome then (st, true)
  else
    let r := add_to_discovered_list p.discoveryIsMT st.queue obj (st.heap obj).discovered
    ({ st with
        queue := r.1,
        heap := updateHeap st.heap obj { st.heap obj with discovered := r.2 } },
      true)

/-- `ReferenceProcessor::enable_discovery` under debug (ASSERT) semantics:
`none` models the fatal assertion (`nested call?`, or a non-empty discovered
list found by `verify_no_references_recorded`). -/
def enable_discovery (st : DiscoverState) : Option DiscoverState :=
  if st.discoveringRefs then none
  else if !st.queue.isEmpty then none
  else some { st with discoveringRefs := true }

/-! ### Soft-reference master clock -/

/-- `ReferenceProcessor::update_soft_ref_master_clock`: given the stored clock
and the freshly read time `now` (both jlong milliseconds), the clock is
advanced only when `now > clock`, otherwise left stalled at its old value. -/
def update_soft_ref_master_clock (clock now : Int) : Int :=
  if clock < now then now else clock

/-! ### MT-degree adjuster (`RefProcMTDegreeAdjuster`) -/

/-- The three processing phases. -/
inductive RefProcPhases
  | softWeakFinalRefsPhase
  | keepAliveFinalRefsPhase
  | phantomRefsPhase
deriving DecidableEq, Repr

/-- `RefProcMTDegreeAdjuster::use_max_threads`. -/
def use_max_threads (phase : RefProcPhases) : Bool :=
  phase == RefProcPhases.keepAliveFinalRefsPhase

/-- `RefProcMTDegreeAdjuster::ergo_proc_thread_count` with
`rpt = ReferencesPerThread` and `procs = os::active_processor_count()`:
`MIN3(1 + ref_count / rpt, max_threads, procs)`, except that the
KeepAliveFinal phase (or `rpt == 0`) always uses `max_threads`. -/
def ergo_proc_thread_count (refCount maxThreads procs rpt : Nat)
    (phase : RefProcPhases) : Nat :=
  if use_max_threads phase || rpt == 0 then maxThreads
  else min (min (1 + refCount / rpt) maxThreads) procs

/-- The processor state touched by `set_active_mt_degree`. -/
structure RPDegree where
  numQueues : Nat
  nextId : Nat
deriving DecidableEq, Repr

/-- `ReferenceProcessor::set_active_mt_degree`. -/
def set_active_mt_degree (v : Nat) (rp : RPDegree) : RPDegree :=
  { numQueues := v, nextId := 0 }

/-- The `RefProcMTDegreeAdjuster` constructor/destructor bracket around a
phase body: save `_num_queues`, install the ergonomically chosen degree, run
the phase, then restore the saved degree on destruction. -/
def adjusterScope (phase : RefProcPhases) (numActiveWorkers refCount procs rpt : Nat)
    (body : RPDegree → RPDegree) (rp : RPDegree) : RPDegree :=
  let saved := rp.numQueues
  let rp1 := set_active_mt_degree
    (ergo_proc_thread_count refCount numActiveWorkers procs rpt phase) rp
  let rp2 := body rp1
  set_active_mt_degree saved rp2

/-! ### Cycle-level event trace (for the clock-ordering claim)

A processing cycle is delimited at the close of discovery: it consists of
`process_discovered_references` (which disables discovery, snapshots the
per-category counts, updates the master clock, and runs the three phases in
order) followed by the next discovery window, whose soft-reference
`should_clear_reference` consultations read the clock value installed by that
update. -/

inductive RPEvent
  | disableDiscovery
  | refCountSnapshot
  | clockUpdate
  | runPhase (p : RefProcPhases)
  | enableDiscovery
  | policyConsult
  | discoverInsert
deriving DecidableEq, Repr

/-- Events of `process_discovered_references`, in source order:
`disable_discovery()`, `set_ref_discovered(...)`,
`update_soft_ref_master_clock()`, then the three phases. -/
def processEvents : List RPEvent :=
  [RPEvent.disableDiscovery, RPEvent.refCountSnapshot, RPEvent.clockUpdate,
   RPEvent.runPhase RefProcPhases.softWeakFinalRefsPhase,
   RPEvent.runPhase RefProcPhases.keepAliveFinalRefsPhase,
   RPEvent.runPhase RefProcPhases.phantomRefsPhase]

/-- Events of one `discover_reference` call that reaches insertion: only Soft
references consult the clearing policy (with `_soft_ref_timestamp_clock`). -/
def discoverEvents (rt : RefType) : List RPEvent :=
  if rt == RefType.soft then [RPEvent.policyConsult, RPEvent.discoverInsert]
  else [RPEvent.discoverInsert]

/-- One full processing cycle: processing, then the discovery window whose
clearing decisions use the clock value this cycle installed. -/
def cycleEvents (ds : List RefType) : List RPEvent :=
  processEvents ++ RPEvent.enableDiscovery :: (ds.map discoverEvents).flatten

/-! ### Phase drivers (`process_soft_weak_final_refs`, `process_phantom_refs`) -/

/-- The processor state seen by a phase driver. -/
structure PhaseState where
  numQueues : Nat
  maxNumQueues : Nat
  parallelEnabled : Bool
  balancingEnabled : Bool
  soft : List (List RefNode)
  weak : List (List RefNode)
  final : List (List RefNode)
  phantom : List (List RefNode)
  pending : List RefNode
deriving DecidableEq, Repr

/-- `ReferenceProcessor::processing_is_mt`:
`ParallelRefProcEnabled && _num_queues > 1`. -/
def processing_is_mt (parallelEnabled : Bool) (numQueues : Nat) : Bool :=
  parallelEnabled && decide (1 < numQueues)

/-- `ReferenceProcessor::need_balance_queues`: balance when configured to, or
when a non-empty list sits beyond the processing degree. -/
def need_balance_queues (balancingEnabled : Bool) (n : Nat)
    (qs : List (List RefNode)) : Bool :=
  balancingEnabled || (qs.drop n).any (fun l => !l.isEmpty)

/-- `ReferenceProcessor::maybe_balance_queues`. -/
def maybe_balance_queues (balancingEnabled : Bool) (n : Nat)
    (qs : List (List RefNode)) : List (List RefNode) :=
  if need_balance_queues balancingEnabled n qs then balance_queues n qs else qs

/-- Process one category's queue at worker index `i`, splicing onto pending. -/
def processQueueAt (rt : RefType) (is_alive : Nat → Bool)
    (qs : List (List RefNode)) (pending : List RefNode) (i : Nat) :
    List (List RefNode) × List RefNode :=
  let r := process_discovered_list rt is_alive (qs.getD i []) pending
  (qs.set i r.1, r.2.1)

/-- `RefProcSoftWeakFinalPhaseTask::rp_work` for worker `i`: Soft, Weak and
Final lists at index `i`, in that order. -/
def swfWorker (is_alive : Nat → Bool) (st : PhaseState) (i : Nat) : PhaseState :=
  let s1 := processQueueAt RefType.soft is_alive st.soft st.pending i
  let s2 := processQueueAt RefType.weak is_alive st.weak s1.2 i
  let s3 := processQueueAt RefType.final is_alive st.final s2.2 i
  { st with soft := s1.1, weak := s2.1, final := s3.1, pending := s3.2 }

/-- `RefProcKeepAliveFinalPhaseTask::rp_work` for worker `i`. -/
def kafWorker (st : PhaseState) (i : Nat) : PhaseState :=
  let r := process_final_keep_alive_work (st.final.getD i []) st.pending
  { st with final := st.final.set i r.1, pending := r.2.1 }

/-- `RefProcPhantomPhaseTask::rp_work` for worker `i`. -/
def phantomWorker (is_alive : Nat → Bool) (st : PhaseState) (i : Nat) : PhaseState :=
  let s1 := processQueueAt RefType.phantom is_alive st.phantom st.pending i
  { st with phantom := s1.1, pending := s1.2 }

/-- `ReferenceProcessor::run_task`: one indexed invocation per worker (indices
`0 .. k-1`). -/
def runWorkers (f : PhaseState → Nat → PhaseState) (st : PhaseState) (k : Nat) :
    PhaseState :=
  (List.range k).foldl f st

/-- `ReferenceProcessor::process_soft_weak_final_refs`: skip the phase
entirely when no Soft, Weak or Final references were discovered; otherwise
adjust the MT degree, balance the three categories when processing is
multi-threaded, run the phase task, and restore the degree. -/
def process_soft_weak_final_refs (is_alive : Nat → Bool)
    (numActiveWorkers procs rpt : Nat) (st : PhaseState) : PhaseState :=
  let numTotal := totalRefs st.soft + totalRefs st.weak + totalRefs st.final
  if numTotal = 0 then st
  else
    let saved := st.numQueues
    let deg := ergo_proc_thread_count numTotal numActiveWorkers procs rpt
      RefProcPhases.softWeakFinalRefsPhase
    let st1 := { st with numQueues := deg }
    let st2 :=
      if processing_is_mt st1.parallelEnabled st1.numQueues then
        { st1 with
            soft := maybe_balance_queues st1.balancingEnabled st1.numQueues st1.soft,
            weak := maybe_balance_queues st1.balancingEnabled st1.numQueues st1.weak,
            final := maybe_balance_queues st1.balancingEnabled st1.numQueues st1.final }
      else st1
    let workerCount := if processing_is_mt st2.parallelEnabled st2.numQueues
      then st2.numQueues else st2.maxNumQueues
    let st3 := runWorkers (swfWorker is_alive) st2 workerCount
    { st3 with numQueues := saved }

/-- `ReferenceProcessor::process_final_keep_alive`. -/
def process_final_keep_alive (numActiveWorkers procs rpt : Nat)
    (st : PhaseState) : PhaseState :=
  let numFinal := totalRefs st.final
  if numFinal = 0 then st
  else
    let saved := st.numQueues
    let deg := ergo_proc_thread_count numFinal numActiveWorkers procs rpt
      RefProcPhases.keepAliveFinalRefsPhase
    let st1 := { st with numQueues := deg }
    let st2 :=
      if processing_is_mt st1.parallelEnabled st1.numQueues then
        { st1 with
            final := maybe_balance_queues st1.balancingEnabled st1.numQueues st1.final }
      else st1
    let workerCount := if processing_is_mt st2.parallelEnabled st2.numQueues
      then st2.numQueues else st2.maxNumQueues
    let st3 := runWorkers kafWorker st2 workerCount
    { st3 with numQueues := saved }

/-- `ReferenceProcessor::process_phantom_refs`. -/
def process_phantom_refs (is_alive : Nat → Bool)
    (numActiveWorkers procs rpt : Nat) (st : PhaseState) : PhaseState :=
  let numPhantom := totalRefs st.phantom
  if numPhantom = 0 then st
  else
    let saved := st.numQueues
    let deg := ergo_proc_thread_count numPhantom numActiveWorkers procs rpt
      RefProcPhases.phantomRefsPhase
    let st1 := { st with numQueues := deg }
    let st2 :=
      if processing_is_mt st1.parallelEnabled st1.numQueues then
        { st1 with
            phantom := maybe_balance_queues st1.balancingEnabled st1.numQueues st1.phantom }
      else st1
    let workerCount := if processing_is_mt st2.parallelEnabled st2.numQueues
      then st2.numQueues else st2.maxNumQueues
    let st3 := runWorkers (phantomWorker is_alive) st2 workerCount
    { st3 with numQueues := saved }

/-! ### Concrete example states used by the witnesses -/

/-- Discovery configuration used in concrete witnesses. -/
def exParams : DiscoverParams :=
  { registerReferences := true
    discoveryIsMT := false
    subject := fun _ => true
    isAliveNonHeader := none
    shouldClear := fun _ => true }

/-- A heap where object 5 is already discovered (`discovered = some 2`). -/
def exHeap : Nat → RefFields := fun _ =>
  { referent := some 1, discovered := some 2, next_f := none }

/-- A state inside a discovery window with object 5 already queued. -/
def exStateDiscovered : DiscoverState :=
  { discoveringRefs := true, heap := exHeap, queue := [5] }

/-- A state outside any discovery window. -/
def exStateIdle : DiscoverState :=
  { discoveringRefs := false, heap := exHeap, queue := [] }

/-- An empty phase state with two queues per category. -/
def exEmptyPhaseState : PhaseState :=
  { numQueues := 2
    maxNumQueues := 2
    parallelEnabled := true
    balancingEnabled := true
    soft := [[], []]
    weak := [[], []]
    final := [[], []]
    phantom := [[], []]
    pending := [⟨9, none, false⟩] }

/-! #### Arithmetic facts about the queue model -/

lemma lenq_nil {α : Type} (i : Nat) : lenq ([] : List (List α)) i = 0 := by
  cases i <;> simp [lenq, List.getD]

lemma lenq_cons_zero {α : Type} (a : List α) (qs : List (List α)) :
    lenq (a :: qs) 0 = a.length := rfl

lemma lenq_cons_succ {α : Type} (a : List α) (qs : List (List α)) (i : Nat) :
    lenq (a :: qs) (i + 1) = lenq qs i := rfl

lemma lenq_of_length_le {α : Type} (qs : List (List α)) (i : Nat)
    (h : qs.length ≤ i) : lenq qs i = 0 := by
  unfold lenq
  rw [List.getD_eq_default _ _ h]
  rfl

lemma totalRefs_nil {α : Type} : totalRefs ([] : List (List α)) = 0 := rfl

lemma totalRefs_cons {α : Type} (a : List α) (qs : List (List α)) :
    totalRefs (a :: qs) = a.length + totalRefs qs := by
  simp [totalRefs]

lemma lenq_set {α : Type} (qs : List (List α)) (i j : Nat) (l : List α) :
    lenq (qs.set i l) j =
      if i = j ∧ i < qs.length then l.length else lenq qs j := by
  induction qs generalizing i j with
  | nil => simp [lenq_nil]
  | cons a tl ih =>
    cases i with
    | zero =>
      cases j with
      | zero => simp [lenq_cons_zero]
      | succ j => simp [lenq_cons_succ]
    | succ i =>
      cases j with
      | zero => simp [lenq_cons_zero]
      | succ j =>
        simp only [List.set_cons_succ, lenq_cons_succ, ih, List.length_cons]
        have hiff : (i + 1 = j + 1 ∧ i + 1 < tl.length + 1) ↔ (i = j ∧ i < tl.length) := by
          omega
        simp [hiff]

lemma totalRefs_set {α : Type} (qs : List (List α)) (i : Nat) (l : List α)
    (h : i < qs.length) :
    totalRefs (qs.set i l) + lenq qs i = totalRefs qs + l.length := by
  induction qs generalizing i with
  | nil => simp at h
  | cons a tl ih =>
    cases i with
    | zero => simp [totalRefs_cons, lenq_cons_zero]; omega
    | succ i =>
      simp only [List.set_cons_succ, totalRefs_cons, lenq_cons_succ]
      have := ih i (by simpa using h)
      omega

lemma sumLen_le_succ {α : Type} (qs : List (List α)) (n : Nat) :
    sumLen qs n ≤ sumLen qs (n + 1) := by
  simp [sumLen]

lemma sumLen_cons_succ {α : Type} (a : List α) (qs : List (List α)) (n : Nat) :
    sumLen (a :: qs) (n + 1) = a.length + sumLen qs n := by
  induction n with
  | zero => simp [sumLen, lenq_cons_zero]
  | succ n ih =>
    have e1 : sumLen (a :: qs) (n + 1 + 1) = sumLen (a :: qs) (n + 1) + lenq (a :: qs) (n + 1) := rfl
    have e2 : sumLen qs (n + 1) = sumLen qs n + lenq qs n := rfl
    rw [e1, ih, lenq_cons_succ, e2]
    omega

lemma totalRefs_eq_sumLen {α : Type} (qs : List (List α)) :
    totalRefs qs = sumLen qs qs.length := by
  induction qs with
  | nil => rfl
  | cons a tl ih =>
    simp [totalRefs_cons, List.length_cons, sumLen_cons_succ, ih]

lemma sumLen_mono {α : Type} (qs : List (List α)) {m n : Nat} (h : m ≤ n) :
    sumLen qs m ≤ sumLen qs n := by
  induction n with
  | zero => simp_all
  | succ n ih =>
    rcases Nat.eq_or_lt_of_le h with rfl | hlt
    · exact Nat.le_refl _
    · exact Nat.le_trans (ih (by omega)) (sumLen_le_succ qs n)

lemma sumLen_le_totalRefs {α : Type} (qs : List (List α)) {n : Nat}
    (h : n ≤ qs.length) : sumLen qs n ≤ totalRefs qs := by
  rw [totalRefs_eq_sumLen]
  exact sumLen_mono qs h

lemma full_queues_sum {α : Type} (qs : List (List α)) (avg : Nat) :
    ∀ n : Nat, (∀ j, j < n → avg ≤ lenq qs j) → n * avg ≤ sumLen qs n := by
  intro n
  induction n with
  | zero => simp [sumLen]
  | succ n ih =>
    intro hfull
    have h1 : n * avg ≤ sumLen qs n := ih (fun j hj => hfull j (by omega))
    have h2 : avg ≤ lenq qs n := hfull n (by omega)
    simp only [sumLen, Nat.succ_mul]
    omega

/-- The counting argument behind `assert(to_idx < _num_queues)`: if all `n`
active queues were at or above `avg` while `total < n * avg`, the total would
be exceeded. -/
lemma not_all_active_full {α : Type} (qs : List (List α)) (avg n : Nat)
    (hQ : n ≤ qs.length) (hfull : ∀ j, j < n → avg ≤ lenq qs j)
    (htot : totalRefs qs < n * avg) : False := by
  have h1 := full_queues_sum qs avg n hfull
  have h2 := sumLen_le_totalRefs qs hQ
  omega

/-! #### Facts about `moveRefs` -/

lemma length_moveRefs {α : Type} (qs : List (List α)) (fi ti k : Nat) :
    (moveRefs qs fi ti k).length = qs.length := by
  simp [moveRefs]

lemma lenq_moveRefs_src {α : Type} (qs : List (List α)) {fi ti : Nat} (k : Nat)
    (hf : fi < qs.length) :
    lenq (moveRefs qs fi ti k) fi = lenq qs fi - k := by
  show lenq ((qs.set ti ((qs.getD fi []).take k ++ qs.getD ti [])).set fi
      ((qs.getD fi []).drop k)) fi = lenq qs fi - k
  rw [lenq_set, if_pos ⟨rfl, by simpa using hf⟩]
  simp [lenq]

lemma lenq_moveRefs_dst {α : Type} (qs : List (List α)) {fi ti : Nat} {k : Nat}
    (ht : ti < qs.length) (hne : fi ≠ ti) (hk : k ≤ lenq qs fi) :
    lenq (moveRefs qs fi ti k) ti = lenq qs ti + k := by
  show lenq ((qs.set ti ((qs.getD fi []).take k ++ qs.getD ti [])).set fi
      ((qs.getD fi []).drop k)) ti = lenq qs ti + k
  rw [lenq_set, if_neg (by intro hc; exact hne hc.1)]
  rw [lenq_set, if_pos ⟨rfl, ht⟩]
  have hk2 : k ≤ (qs.getD fi []).length := hk
  have h6 : lenq qs ti = (qs.getD ti []).length := rfl
  simp only [List.length_append, List.length_take]
  omega

lemma lenq_moveRefs_other {α : Type} (qs : List (List α)) {fi ti j : Nat} (k : Nat)
    (h1 : j ≠ fi) (h2 : j ≠ ti) :
    lenq (moveRefs qs fi ti k) j = lenq qs j := by
  show lenq ((qs.set ti ((qs.getD fi []).take k ++ qs.getD ti [])).set fi
      ((qs.getD fi []).drop k)) j = lenq qs j
  rw [lenq_set, if_neg (by intro hc; exact h1 hc.1.symm)]
  rw [lenq_set, if_neg (by intro hc; exact h2 hc.1.symm)]

lemma totalRefs_moveRefs {α : Type} (qs : List (List α)) {fi ti : Nat} (k : Nat)
    (hf : fi < qs.length) (ht : ti < qs.length) (hne : fi ≠ ti) :
    totalRefs (moveRefs qs fi ti k) = totalRefs qs := by
  have hlen : ((qs.set ti ((qs.getD fi []).take k ++ qs.getD ti [])).length) = qs.length := by
    simp
  have h1 := totalRefs_set (qs.set ti ((qs.getD fi []).take k ++ qs.getD ti []))
      fi ((qs.getD fi []).drop k) (by rw [hlen]; exact hf)
  have h2 := totalRefs_set qs ti ((qs.getD fi []).take k ++ qs.getD ti []) ht
  have h3 : lenq (qs.set ti ((qs.getD fi []).take k ++ qs.getD ti [])) fi = lenq qs fi := by
    rw [lenq_set, if_neg (by intro hc; exact hne hc.1.symm)]
  have h4 : ((qs.getD fi []).take k).length + ((qs.getD fi []).drop k).length
      = (qs.getD fi []).length := by
    rw [← List.length_append, List.take_append_drop]
  have h5 : lenq qs fi = (qs.getD fi []).length := rfl
  have h6 : lenq qs ti = (qs.getD ti []).length := rfl
  have hgoal : totalRefs (moveRefs qs fi ti k)
      = totalRefs ((qs.set ti ((qs.getD fi []).take k ++ qs.getD ti [])).set fi
          ((qs.getD fi []).drop k)) := rfl
  rw [hgoal]
  simp only [List.length_append] at h2
  omega

/-! #### Unfolding equations for `balanceFrom` -/

lemma balanceFrom_stop {α : Type} {avg n fi : Nat} {qs : List (List α)} {ti rem : Nat}
    (h : ¬ (0 < rem ∧ ti < n)) :
    balanceFrom avg n fi qs ti rem = (qs, ti) := by
  rw [balanceFrom]
  rw [dif_neg h]

lemma balanceFrom_skip {α : Type} {avg n fi : Nat} {qs : List (List α)} {ti rem : Nat}
    (h : 0 < rem ∧ ti < n) (h2 : avg ≤ lenq qs ti) :
    balanceFrom avg n fi qs ti rem = balanceFrom avg n fi qs (ti + 1) rem := by
  conv_lhs => rw [balanceFrom]
  rw [dif_pos h, dif_pos h2]

lemma balanceFrom_move {α : Type} {avg n fi : Nat} {qs : List (List α)} {ti rem : Nat}
    (k : Nat) (hk : k = min rem (avg - lenq qs ti))
    (h : 0 < rem ∧ ti < n) (h2 : ¬ avg ≤ lenq qs ti) :
    balanceFrom avg n fi qs ti rem
      = balanceFrom avg n fi (moveRefs qs fi ti k) ti (rem - k) := by
  subst hk
  conv_lhs => rw [balanceFrom]
  rw [dif_pos h, dif_neg h2]

/-- Invariant-preservation for the inner loop of `balance_queues`: starting
from a state whose destination queues below `ti` are full (at or above `avg`),
whose source queue `fi` holds exactly `rem` excess entries above its target
`base`, and whose total is below the capacity `n * avg`, the loop drains `rem`
completely (the C++ assertion `to_idx < _num_queues` never fails), preserves
the total, never pushes a destination above `avg`, and leaves queues other
than `fi` and the destination range untouched. -/
lemma balanceFrom_spec {α : Type} (avg n fi base : Nat) (hn : 1 ≤ n)
    (hbase : (fi < n ∧ base = avg) ∨ (n ≤ fi ∧ base = 0)) :
    ∀ (m rem ti : Nat) (qs : List (List α)),
      rem * n + (n - ti) ≤ m →
      n ≤ qs.length → fi < qs.length → ti ≤ n →
      lenq qs fi = rem + base →
      (∀ j, j < ti → avg ≤ lenq qs j) →
      totalRefs qs < n * avg →
      (balanceFrom avg n fi qs ti rem).1.length = qs.length ∧
      totalRefs (balanceFrom avg n fi qs ti rem).1 = totalRefs qs ∧
      ti ≤ (balanceFrom avg n fi qs ti rem).2 ∧
      (balanceFrom avg n fi qs ti rem).2 ≤ n ∧
      lenq (balanceFrom avg n fi qs ti rem).1 fi = base ∧
      (∀ j, j < (balanceFrom avg n fi qs ti rem).2 →
        avg ≤ lenq (balanceFrom avg n fi qs ti rem).1 j) ∧
      (∀ j, j ≠ fi → (j < ti ∨ n ≤ j) →
        lenq (balanceFrom avg n fi qs ti rem).1 j = lenq qs j) ∧
      (∀ j, j ≠ fi → lenq (balanceFrom avg n fi qs ti rem).1 j ≤ max (lenq qs j) avg) := by
  intro m
  induction m with
  | zero =>
    intro rem ti qs hm hQ hfi hti hsrc hpre htot
    have hrem : rem = 0 := by
      by_contra hr
      have : 0 < rem * n := Nat.mul_pos (by omega) (by omega)
      omega
    subst hrem
    rw [balanceFrom_stop (by omega)]
    exact ⟨rfl, rfl, le_refl _, hti, by simpa using hsrc, hpre, fun j _ _ => rfl,
      fun j _ => le_max_left _ _⟩
  | succ m ih =>
    intro rem ti qs hm hQ hfi hti hsrc hpre htot
    by_cases hrem : rem = 0
    · subst hrem
      rw [balanceFrom_stop (by omega)]
      exact ⟨rfl, rfl, le_refl _, hti, by simpa using hsrc, hpre, fun j _ _ => rfl,
        fun j _ => le_max_left _ _⟩
    · have htilt : ti < n := by
        rcases Nat.eq_or_lt_of_le hti with heq | hlt
        · exact absurd htot (by
            intro hcon
            exact not_all_active_full qs avg n hQ (fun j hj => hpre j (by omega)) hcon)
        · exact hlt
      by_cases hskip : avg ≤ lenq qs ti
      · rw [balanceFrom_skip ⟨by omega, htilt⟩ hskip]
        have hm2 : rem * n + (n - (ti + 1)) ≤ m := by omega
        have hpre2 : ∀ j, j < ti + 1 → avg ≤ lenq qs j := by
          intro j hj
          rcases Nat.lt_or_ge j ti with hcase | hcase
          · exact hpre j hcase
          · have hje : j = ti := by omega
            subst hje
            exact hskip
        obtain ⟨c1, c2, c3, c4, c5, c6, c7, c8⟩ :=
          ih rem (ti + 1) qs hm2 hQ hfi (by omega) hsrc hpre2 htot
        exact ⟨c1, c2, by omega, c4, c5, c6, fun j hj1 hj2 => c7 j hj1 (by omega), c8⟩
      · obtain ⟨k, hkdef⟩ : ∃ k, k = min rem (avg - lenq qs ti) := ⟨_, rfl⟩
        have hkr : k ≤ rem := hkdef ▸ Nat.min_le_left _ _
        have hka : k ≤ avg - lenq qs ti := hkdef ▸ Nat.min_le_right _ _
        have hk1 : 1 ≤ k := hkdef ▸ Nat.le_min.mpr ⟨by omega, by omega⟩
        have hne : fi ≠ ti := by
          rcases hbase with ⟨hfin, hbe⟩ | ⟨hfin, hbe⟩
          · intro he
            rw [he] at hsrc
            omega
          · intro he
            omega
        have htiQ : ti < qs.length := by omega
        have hkle : k ≤ lenq qs fi := by omega
        have e1 : (moveRefs qs fi ti k).length = qs.length := length_moveRefs qs fi ti k
        have e2 : lenq (moveRefs qs fi ti k) fi = lenq qs fi - k :=
          lenq_moveRefs_src qs k hfi
        have e3 : lenq (moveRefs qs fi ti k) ti = lenq qs ti + k :=
          lenq_moveRefs_dst qs htiQ hne hkle
        have e4 : ∀ j, j ≠ fi → j ≠ ti → lenq (moveRefs qs fi ti k) j = lenq qs j :=
          fun j ha hb => lenq_moveRefs_other qs k ha hb
        have e5 : totalRefs (moveRefs qs fi ti k) = totalRefs qs :=
          totalRefs_moveRefs qs k hfi htiQ hne
        rw [balanceFrom_move k hkdef ⟨by omega, htilt⟩ hskip]
        have hkn1 : n ≤ k * n := Nat.le_mul_of_pos_left n (by omega)
        have hkn2 : k * n ≤ rem * n := Nat.mul_le_mul_right n hkr
        have hm2 : (rem - k) * n + (n - ti) ≤ m := by
          rw [Nat.sub_mul]
          omega
        have hsrc2 : lenq (moveRefs qs fi ti k) fi = (rem - k) + base := by
          rw [e2]
          omega
        have hpre2 : ∀ j, j < ti → avg ≤ lenq (moveRefs qs fi ti k) j := by
          intro j hj
          by_cases hjf : j = fi
          · subst hjf
            rw [e2]
            rcases hbase with ⟨hfin, hbe⟩ | ⟨hfin, hbe⟩
            · omega
            · omega
          · rw [e4 j hjf (by omega)]
            exact hpre j hj
        obtain ⟨c1, c2, c3, c4, c5, c6, c7, c8⟩ :=
          ih (rem - k) ti (moveRefs qs fi ti k) hm2 (by omega) (by omega) (by omega)
            hsrc2 hpre2 (by omega)
        refine ⟨c1.trans e1, c2.trans e5, c3, c4, c5, c6, ?_, ?_⟩
        · intro j hj1 hj2
          rw [c7 j hj1 hj2, e4 j hj1 (by omega)]
        · intro j hj1
          by_cases hjt : j = ti
          · have hj1t : ti ≠ fi := hjt ▸ hj1
            rw [hjt]
            have h9 := c8 ti hj1t
            rw [e3] at h9
            have h10 : lenq qs ti + k ≤ avg := by omega
            have h11 : max (lenq qs ti + k) avg = avg := Nat.max_eq_right h10
            rw [h11] at h9
            exact h9.trans (le_max_right _ _)
          · have := c8 j hj1
            rw [e4 j hj1 hjt] at this
            exact this


lemma balanceOuter_succ {α : Type} (avg n fuel : Nat) (qs : List (List α)) (fi ti : Nat) :
    balanceOuter avg n (fuel + 1) qs fi ti
      = balanceOuter avg n fuel
          (balanceFrom avg n fi qs ti (if n ≤ fi then lenq qs fi else lenq qs fi - avg)).1
          (fi + 1)
          (balanceFrom avg n fi qs ti (if n ≤ fi then lenq qs fi else lenq qs fi - avg)).2 :=
  rfl

/-- Invariant-preservation for the outer loop of `balance_queues`: processed
active sources are trimmed to at most `avg`, processed non-active sources are
emptied, and the total is preserved. -/
lemma balanceOuter_spec {α : Type} (avg n : Nat) (hn : 1 ≤ n) :
    ∀ (fuel : Nat) (qs : List (List α)) (fi ti : Nat),
      fi + fuel = qs.length →
      n ≤ qs.length →
      ti ≤ n →
      (∀ j, j < ti → avg ≤ lenq qs j) →
      totalRefs qs < n * avg →
      (∀ j, j < fi → j < n → lenq qs j ≤ avg) →
      (∀ j, j < fi → n ≤ j → lenq qs j = 0) →
      (balanceOuter avg n fuel qs fi ti).1.length = qs.length ∧
      totalRefs (balanceOuter avg n fuel qs fi ti).1 = totalRefs qs ∧
      (∀ j, j < n → lenq (balanceOuter avg n fuel qs fi ti).1 j ≤ avg) ∧
      (∀ j, n ≤ j → j < qs.length → lenq (balanceOuter avg n fuel qs fi ti).1 j = 0) := by
  intro fuel
  induction fuel with
  | zero =>
    intro qs fi ti hQ hn2 hti hpre htot hB hC
    exact ⟨rfl, rfl, fun j hj => hB j (by omega) hj, fun j hj1 hj2 => hC j (by omega) hj1⟩
  | succ fuel ih =>
    intro qs fi ti hQ hn2 hti hpre htot hB hC
    have hfiQ : fi < qs.length := by omega
    rw [balanceOuter_succ]
    by_cases hfin : n ≤ fi
    · -- non-active source: move everything
      rw [if_pos hfin]
      obtain ⟨c1, c2, c3, c4, c5, c6, c7, c8⟩ :=
        balanceFrom_spec avg n fi 0 hn (Or.inr ⟨hfin, rfl⟩)
          (lenq qs fi * n + (n - ti)) (lenq qs fi) ti qs (le_refl _) hn2 hfiQ hti
          (by omega) hpre htot
      obtain ⟨d1, d2, d3, d4⟩ := ih (balanceFrom avg n fi qs ti (lenq qs fi)).1 (fi + 1)
        (balanceFrom avg n fi qs ti (lenq qs fi)).2
        (by omega) (by omega) c4 c6 (by omega)
        (by
          intro j hj1 hj2
          have hjfi : j ≠ fi := by omega
          have := c8 j hjfi
          have hBj := hB j (by omega) hj2
          omega)
        (by
          intro j hj1 hj2
          by_cases hjfi : j = fi
          · rw [hjfi]; exact c5
          · rw [c7 j hjfi (Or.inr hj2)]
            exact hC j (by omega) hj2)
      refine ⟨by omega, by omega, d3, ?_⟩
      intro j hj1 hj2
      exact d4 j hj1 (by omega)
    · -- active source: move the excess above avg
      rw [if_neg hfin]
      by_cases hzero : lenq qs fi - avg = 0
      · rw [hzero, balanceFrom_stop (by omega)]
        obtain ⟨d1, d2, d3, d4⟩ := ih qs (fi + 1) ti (by omega) hn2 hti hpre htot
          (by
            intro j hj1 hj2
            by_cases hjfi : j = fi
            · rw [hjfi]; omega
            · exact hB j (by omega) hj2)
          (by
            intro j hj1 hj2
            exact hC j (by omega) hj2)
        exact ⟨d1, d2, d3, fun j hj1 hj2 => d4 j hj1 hj2⟩
      · obtain ⟨c1, c2, c3, c4, c5, c6, c7, c8⟩ :=
          balanceFrom_spec avg n fi avg hn (Or.inl ⟨by omega, rfl⟩)
            ((lenq qs fi - avg) * n + (n - ti)) (lenq qs fi - avg) ti qs (le_refl _)
            hn2 hfiQ hti (by omega) hpre htot
        obtain ⟨d1, d2, d3, d4⟩ := ih (balanceFrom avg n fi qs ti (lenq qs fi - avg)).1
          (fi + 1) (balanceFrom avg n fi qs ti (lenq qs fi - avg)).2
          (by omega) (by omega) c4 c6 (by omega)
          (by
            intro j hj1 hj2
            by_cases hjfi : j = fi
            · rw [hjfi, c5]
            · have := c8 j hjfi
              have hBj := hB j (by omega) hj2
              omega)
          (by
            intro j hj1 hj2
            have hjfi : j ≠ fi := by omega
            rw [c7 j hjfi (Or.inr hj2)]
            exact hC j (by omega) hj2)
        refine ⟨by omega, by omega, d3, ?_⟩
        intro j hj1 hj2
        exact d4 j hj1 (by omega)

/-- Full correctness of `ReferenceProcessor::balance_queues` with
`avg = total / n + 1`: the total is preserved, every active queue ends at or
below `avg`, and every queue beyond the processing degree ends empty. -/
lemma balance_queues_spec {α : Type} (n : Nat) (qs : List (List α))
    (hn : 1 ≤ n) (hQ : n ≤ qs.length) :
    totalRefs (balance_queues n qs) = totalRefs qs ∧
    (∀ i, i < n → lenq (balance_queues n qs) i ≤ totalRefs qs / n + 1) ∧
    (∀ i, n ≤ i → lenq (balance_queues n qs) i = 0) := by
  have hmod : totalRefs qs % n < n := Nat.mod_lt _ (by omega)
  have hdm : n * (totalRefs qs / n) + totalRefs qs % n = totalRefs qs :=
    Nat.div_add_mod _ _
  have htot : totalRefs qs < n * (totalRefs qs / n + 1) := by
    calc totalRefs qs = n * (totalRefs qs / n) + totalRefs qs % n := hdm.symm
      _ < n * (totalRefs qs / n) + n := by omega
      _ = n * (totalRefs qs / n + 1) := (Nat.mul_succ n _).symm
  obtain ⟨d1, d2, d3, d4⟩ :=
    balanceOuter_spec (totalRefs qs / n + 1) n hn qs.length qs 0 0
      (by omega) hQ (by omega) (by omega) htot (by omega) (by omega)
  refine ⟨d2, d3, ?_⟩
  intro i hi
  by_cases hiQ : i < qs.length
  · exact d4 i hi hiQ
  · have hlenle : (balanceOuter (totalRefs qs / n + 1) n qs.length qs 0 0).1.length ≤ i := by
      omega
    exact lenq_of_length_le _ i hlenle


/-! ### Helper lemmas for the processing phases -/

lemma processLoop_keeps_dead (is_alive : Nat → Bool) (r : RefNode) (v : Nat)
    (hv : r.referent = some v) (hdead : is_alive v = false) :
    ∀ refs : List RefNode, r ∈ refs → r ∈ (processLoop is_alive false refs).1 := by
  intro refs
  induction refs with
  | nil => intro h; simp at h
  | cons a rest ih =>
    intro hmem
    rcases List.mem_cons.mp hmem with heq | hmem2
    · subst heq
      simp [processLoop, hv, hdead]
    · have hrec := ih hmem2
      cases ha : a.referent with
      | none => simpa [processLoop, ha] using hrec
      | some w =>
        by_cases hw : is_alive w
        · simpa [processLoop, ha, hw] using hrec
        · simpa [processLoop, ha, hw] using List.mem_cons_of_mem a hrec

lemma finalKeepAliveLoop_eq (refs : List RefNode) :
    finalKeepAliveLoop refs
      = (refs.map (fun r => { r with nextSelf := true }),
         refs.map (fun r => r.referent)) := by
  induction refs with
  | nil => rfl
  | cons a rest ih => simp [finalKeepAliveLoop, ih]

/-! ### The claims -/

/-- C1: for every distribution of entries across the discovered queues of a
category, `balance_queues` preserves the total entry count — the sum of all
queue lengths after balancing equals the sum before — and no queue ends with
negative length (lengths are naturals in the model, matching the `size_t`
counters). -/
theorem C1_balance_preserves_total (n : Nat) (qs : List (List Nat))
    (hn : 1 ≤ n) (hQ : n ≤ qs.length) :
    totalRefs (balance_queues n qs) = totalRefs qs ∧
    ∀ i, 0 ≤ lenq (balance_queues n qs) i :=
  ⟨(balance_queues_spec n qs hn hQ).1, fun _ => Nat.zero_le _⟩

theorem C1_witness :
    1 ≤ 2 ∧ 2 ≤ ([[0, 1, 2, 3, 4], [], [5, 6], [7]] : List (List Nat)).length ∧
    (totalRefs (balance_queues 2 ([[0, 1, 2, 3, 4], [], [5, 6], [7]] : List (List Nat)))
        = totalRefs ([[0, 1, 2, 3, 4], [], [5, 6], [7]] : List (List Nat)) ∧
      ∀ i, 0 ≤ lenq (balance_queues 2 ([[0, 1, 2, 3, 4], [], [5, 6], [7]] : List (List Nat))) i) :=
  ⟨by omega, by decide,
    C1_balance_preserves_total 2 [[0, 1, 2, 3, 4], [], [5, 6], [7]] (by omega) (by decide)⟩

/-- C2: after `balance_queues` completes with `avg = total / num_active_queues
+ 1`, every active queue `i < _num_queues` has length at most `avg`, and
every queue at or beyond the processing degree has length 0. -/
theorem C2_balance_fairness (n : Nat) (qs : List (List Nat))
    (hn : 1 ≤ n) (hQ : n ≤ qs.length) :
    (∀ i, i < n → lenq (balance_queues n qs) i ≤ totalRefs qs / n + 1) ∧
    (∀ i, n ≤ i → lenq (balance_queues n qs) i = 0) :=
  ⟨(balance_queues_spec n qs hn hQ).2.1, (balance_queues_spec n qs hn hQ).2.2⟩

theorem C2_witness :
    1 ≤ 2 ∧ 2 ≤ ([[0, 1, 2, 3, 4, 5, 6], [], [7], [8, 9]] : List (List Nat)).length ∧
    ((∀ i, i < 2 →
        lenq (balance_queues 2 ([[0, 1, 2, 3, 4, 5, 6], [], [7], [8, 9]] : List (List Nat))) i
          ≤ totalRefs ([[0, 1, 2, 3, 4, 5, 6], [], [7], [8, 9]] : List (List Nat)) / 2 + 1) ∧
      (∀ i, 2 ≤ i →
        lenq (balance_queues 2 ([[0, 1, 2, 3, 4, 5, 6], [], [7], [8, 9]] : List (List Nat))) i = 0)) :=
  ⟨by omega, by decide,
    C2_balance_fairness 2 [[0, 1, 2, 3, 4, 5, 6], [], [7], [8, 9]] (by omega) (by decide)⟩

/-- C5: `process_final_keep_alive_work` removes zero entries: for every Final
reference still on the discovered list, the keep-alive visitor is invoked on
its referent field, its `next` field is set to a self-loop, it is enqueued
onto the pending chain, the iterator's removed count is 0 at the end, and the
Final queue is empty afterwards. -/
theorem C5_keep_alive_final (refs pending : List RefNode) :
    (process_final_keep_alive_work refs pending).2.2.2 = 0 ∧
    (process_final_keep_alive_work refs pending).1 = [] ∧
    (process_final_keep_alive_work refs pending).2.2.1
      = refs.map (fun r => r.referent) ∧
    (process_final_keep_alive_work refs pending).2.1
      = refs.map (fun r => { r with nextSelf := true }) ++ pending ∧
    (∀ r, r ∈ refs →
      ({ r with nextSelf := true } : RefNode) ∈ (process_final_keep_alive_work refs pending).2.1 ∧
      ({ r with nextSelf := true } : RefNode).nextSelf = true) := by
  refine ⟨rfl, rfl, ?_, ?_, ?_⟩
  · show (finalKeepAliveLoop refs).2 = _
    rw [finalKeepAliveLoop_eq]
  · show (finalKeepAliveLoop refs).1 ++ pending = _
    rw [finalKeepAliveLoop_eq]
  · intro r hr
    refine ⟨?_, rfl⟩
    show ({ r with nextSelf := true } : RefNode) ∈ (finalKeepAliveLoop refs).1 ++ pending
    rw [finalKeepAliveLoop_eq]
    exact List.mem_append_left _ (List.mem_map_of_mem _ hr)

theorem C5_witness :
    (⟨3, some 7, false⟩ : RefNode) ∈ [(⟨3, some 7, false⟩ : RefNode)] ∧
    (process_final_keep_alive_work [⟨3, some 7, false⟩] []).2.2.2 = 0 ∧
    (process_final_keep_alive_work [⟨3, some 7, false⟩] []).1 = [] ∧
    (⟨3, some 7, true⟩ : RefNode) ∈ (process_final_keep_alive_work [⟨3, some 7, false⟩] []).2.1 :=
  ⟨by decide, (C5_keep_alive_final [⟨3, some 7, false⟩] []).1,
    (C5_keep_alive_final [⟨3, some 7, false⟩] []).2.1,
    ((C5_keep_alive_final [⟨3, some 7, false⟩] []).2.2.2.2 ⟨3, some 7, false⟩ (by decide)).1⟩

/-- C7: the soft-reference timestamp clock is monotonically non-decreasing:
`update_soft_ref_master_clock` never stores a value smaller than the current
clock, and when the time source reads earlier than the stored clock the clock
is left unchanged. -/
theorem C7_clock_monotone (clock now : Int) :
    clock ≤ update_soft_ref_master_clock clock now ∧
    (now < clock → update_soft_ref_master_clock clock now = clock) ∧
    (clock < now → update_soft_ref_master_clock clock now = now) := by
  unfold update_soft_ref_master_clock
  by_cases h : clock < now
  · rw [if_pos h]
    exact ⟨le_of_lt h, by omega, fun _ => rfl⟩
  · rw [if_neg h]
    exact ⟨le_refl _, fun _ => rfl, by omega⟩

theorem C7_witness :
    (-5 : Int) < 3 ∧ update_soft_ref_master_clock 3 (-5) = 3 :=
  ⟨by decide, (C7_clock_monotone 3 (-5)).2.1 (by decide)⟩

/-- C10: when the total discovered count handled by a phase is zero, that
phase is skipped entirely — no balancing, no MT-degree adjustment, no task
dispatch — leaving the whole processor state (every discovered list and the
pending list) unchanged. -/
theorem C10_empty_phase_noop (is_alive : Nat → Bool)
    (naw procs rpt : Nat) (st : PhaseState) :
    (totalRefs st.soft + totalRefs st.weak + totalRefs st.final = 0 →
      process_soft_weak_final_refs is_alive naw procs rpt st = st) ∧
    (totalRefs st.phantom = 0 →
      process_phantom_refs is_alive naw procs rpt st = st) := by
  constructor
  · intro h
    simp [process_soft_weak_final_refs, h]
  · intro h
    simp [process_phantom_refs, h]

theorem C10_witness :
    totalRefs exEmptyPhaseState.soft + totalRefs exEmptyPhaseState.weak
      + totalRefs exEmptyPhaseState.final = 0 ∧
    totalRefs exEmptyPhaseState.phantom = 0 ∧
    process_soft_weak_final_refs (fun _ => false) 4 8 100 exEmptyPhaseState
      = exEmptyPhaseState ∧
    process_phantom_refs (fun _ => false) 4 8 100 exEmptyPhaseState
      = exEmptyPhaseState :=
  ⟨by decide, by decide,
    (C10_empty_phase_noop (fun _ => false) 4 8 100 exEmptyPhaseState).1 (by decide),
    (C10_empty_phase_noop (fun _ => false) 4 8 100 exEmptyPhaseState).2 (by decide)⟩

/-- C3: discovery is idempotent — when the filter cascade is passed and the
`discovered` field is already non-null, `discover_reference` returns success
without touching the state (no second queue entry, the object's occurrence
count in the queue is unchanged) — and in multi-threaded discovery the
compare-and-exchange against null succeeds only on a null field, so of two
successive insertion attempts on the same object at most the first succeeds. -/
theorem C3_discovery_idempotent (p : DiscoverParams) (st : DiscoverState)
    (obj : Nat) (rt : RefType)
    (hwin : st.discoveringRefs = true)
    (hreg : p.registerReferences = true)
    (hfin : ((rt == RefType.final) && (st.heap obj).next_f.isSome) = false)
    (hsub : p.subject obj = true)
    (halive : (match p.isAliveNonHeader with
               | some isAlive => isAlive (st.heap obj).referent
               | none => false) = false)
    (hsoft : ((rt == RefType.soft) && !(p.shouldClear obj)) = false)
    (hdisc : (st.heap obj).discovered.isSome = true) :
    discover_reference p st obj rt = (st, true) ∧
    (discover_reference p st obj rt).1.queue.count obj = st.queue.count obj ∧
    (∀ nd, (set_discovered_link_mt none nd).2 = true) ∧
    (∀ c nd, c.isSome = true → (set_discovered_link_mt c nd).2 = false) ∧
    (∀ nd nd2, (set_discovered_link_mt (set_discovered_link_mt none nd).1 nd2).2 = false) := by
  have hmain : discover_reference p st obj rt = (st, true) := by
    unfold discover_reference
    rw [hwin, hreg, hfin, hsub, halive, hsoft, hdisc]
    simp
  refine ⟨hmain, by rw [hmain], fun nd => rfl, ?_, fun nd nd2 => rfl⟩
  intro c nd hc
  cases c with
  | none => simp at hc
  | some x => rfl

theorem C3_witness :
    exStateDiscovered.discoveringRefs = true ∧
    (exStateDiscovered.heap 5).discovered.isSome = true ∧
    discover_reference exParams exStateDiscovered 5 RefType.weak
      = (exStateDiscovered, true) ∧
    (discover_reference exParams exStateDiscovered 5 RefType.weak).1.queue.count 5
      = exStateDiscovered.queue.count 5 :=
  ⟨rfl, rfl,
    (C3_discovery_idempotent exParams exStateDiscovered 5 RefType.weak
      rfl rfl rfl rfl rfl rfl rfl).1,
    (C3_discovery_idempotent exParams exStateDiscovered 5 RefType.weak
      rfl rfl rfl rfl rfl rfl rfl).2.1⟩

/-- C4 (counterexample): the claim asserts that in the SoftWeakFinal phase a
Final reference with a dead non-null referent is cleared and spliced onto the
pending chain in that same pass.  On the code
(`do_enqueue_and_clear = (ref_type != REF_FINAL)`) this is false: for a
one-element Final list holding `⟨1, some 5, false⟩` with a dead referent and
an empty pending chain, the pass leaves the pending chain empty and keeps the
entry on the discovered list with its referent uncleared. -/
theorem C4_counterexample :
    ¬ ((∀ r ∈ (process_discovered_list RefType.final (fun _ => false)
          [⟨1, some 5, false⟩] []).1, r.referent = none) ∧
       (∃ r ∈ (process_discovered_list RefType.final (fun _ => false)
          [⟨1, some 5, false⟩] []).2.1, r.rid = 1)) := by
  decide

/-- C4 (amended): in the SoftWeakFinal phase, a Final-category reference whose
referent is neither null nor alive is not removed from its discovered list,
but — because `do_enqueue_and_clear` is false for `REF_FINAL` — it is neither
cleared nor enqueued in that pass: it stays on the discovered Final list with
its referent intact and the pending chain is left unchanged (clearing-free
keep-alive and enqueueing happen in the later KeepAliveFinal phase). -/
theorem C4_final_swf_keeps_entries (is_alive : Nat → Bool)
    (refs pending : List RefNode) (r : RefNode) (v : Nat)
    (hr : r ∈ refs) (hv : r.referent = some v) (hdead : is_alive v = false) :
    r ∈ (process_discovered_list RefType.final is_alive refs pending).1 ∧
    (process_discovered_list RefType.final is_alive refs pending).2.1 = pending := by
  constructor
  · show r ∈ (processLoop is_alive false refs).1
    exact processLoop_keeps_dead is_alive r v hv hdead refs hr
  · rfl

theorem C4_witness :
    (⟨1, some 5, false⟩ : RefNode) ∈ [(⟨1, some 5, false⟩ : RefNode)] ∧
    (⟨1, some 5, false⟩ : RefNode).referent = some 5 ∧
    ((fun _ => false) : Nat → Bool) 5 = false ∧
    ((⟨1, some 5, false⟩ : RefNode) ∈ (process_discovered_list RefType.final
        (fun _ => false) [⟨1, some 5, false⟩] []).1 ∧
      (process_discovered_list RefType.final (fun _ => false)
        [⟨1, some 5, false⟩] []).2.1 = []) :=
  ⟨by decide, rfl, rfl,
    C4_final_swf_keeps_entries (fun _ => false) [⟨1, some 5, false⟩] []
      ⟨1, some 5, false⟩ 5 (by decide) rfl rfl⟩

/-- C6: within one processing cycle — delimited at the close of discovery, so
the cycle consists of `process_discovered_references` followed by the next
discovery window, whose soft-reference clearing decisions consult the clock
value this cycle installed — the clock update event occurs exactly once, it
comes after `disable_discovery`, and it precedes every
`should_clear_reference` policy consultation of the cycle. -/
theorem C6_clock_ordering (ds : List RefType) :
    (cycleEvents ds).count RPEvent.clockUpdate = 1 ∧
    ∃ pre post, cycleEvents ds = pre ++ RPEvent.clockUpdate :: post ∧
      RPEvent.disableDiscovery ∈ pre ∧
      RPEvent.policyConsult ∉ pre ∧
      RPEvent.clockUpdate ∉ pre := by
  have hflat : RPEvent.clockUpdate ∉ (ds.map discoverEvents).flatten := by
    intro hmem
    rw [List.mem_flatten] at hmem
    obtain ⟨l, hl, hm⟩ := hmem
    rw [List.mem_map] at hl
    obtain ⟨rt, _, rfl⟩ := hl
    cases rt <;> simp [discoverEvents] at hm
  constructor
  · show (processEvents ++ RPEvent.enableDiscovery
        :: (ds.map discoverEvents).flatten).count RPEvent.clockUpdate = 1
    rw [List.count_append]
    have h1 : processEvents.count RPEvent.clockUpdate = 1 := by decide
    have h2 : (RPEvent.enableDiscovery
        :: (ds.map discoverEvents).flatten).count RPEvent.clockUpdate = 0 := by
      rw [List.count_eq_zero]
      intro hmem
      rcases List.mem_cons.mp hmem with h | h
      · exact absurd h (by decide)
      · exact hflat h
    omega
  · refine ⟨[RPEvent.disableDiscovery, RPEvent.refCountSnapshot],
      [RPEvent.runPhase RefProcPhases.softWeakFinalRefsPhase,
       RPEvent.runPhase RefProcPhases.keepAliveFinalRefsPhase,
       RPEvent.runPhase RefProcPhases.phantomRefsPhase]
        ++ RPEvent.enableDiscovery :: (ds.map discoverEvents).flatten,
      rfl, by decide, by decide, by decide⟩

theorem C6_witness :
    (cycleEvents [RefType.soft, RefType.weak]).count RPEvent.clockUpdate = 1 ∧
    ∃ pre post, cycleEvents [RefType.soft, RefType.weak]
        = pre ++ RPEvent.clockUpdate :: post ∧
      RPEvent.disableDiscovery ∈ pre ∧
      RPEvent.policyConsult ∉ pre ∧
      RPEvent.clockUpdate ∉ pre :=
  C6_clock_ordering [RefType.soft, RefType.weak]

/-- C8: for every phase and discovered count (with a non-zero
`ReferencesPerThread` threshold), the MT-degree adjuster computes
`MIN3(1 + count / threshold, max workers, processor count)` — except for the
KeepAliveFinal phase, which always uses the caller-supplied maximum — and the
scoped adjuster restores the previously active degree on destruction. -/
theorem C8_mt_degree (refCount maxThreads procs rpt : Nat) (phase : RefProcPhases)
    (hrpt : rpt ≠ 0) :
    (phase = RefProcPhases.keepAliveFinalRefsPhase →
      ergo_proc_thread_count refCount maxThreads procs rpt phase = maxThreads) ∧
    (phase ≠ RefProcPhases.keepAliveFinalRefsPhase →
      ergo_proc_thread_count refCount maxThreads procs rpt phase
        = min (min (1 + refCount / rpt) maxThreads) procs) ∧
    (∀ (body : RPDegree → RPDegree) (rp : RPDegree),
      (adjusterScope phase maxThreads refCount procs rpt body rp).numQueues
        = rp.numQueues) ∧
    (∀ rp : RPDegree,
      (set_active_mt_degree
        (ergo_proc_thread_count refCount maxThreads procs rpt phase) rp).numQueues
        = ergo_proc_thread_count refCount maxThreads procs rpt phase) := by
  refine ⟨?_, ?_, fun body rp => rfl, fun rp => rfl⟩
  · intro h
    subst h
    simp [ergo_proc_thread_count, use_max_threads]
  · intro h
    have h1 : use_max_threads phase = false := by
      cases phase <;> simp_all [use_max_threads]
    have h2 : (rpt == 0) = false := by
      simpa using hrpt
    simp [ergo_proc_thread_count, h1, h2]

theorem C8_witness :
    (3 : Nat) ≠ 0 ∧
    RefProcPhases.softWeakFinalRefsPhase ≠ RefProcPhases.keepAliveFinalRefsPhase ∧
    ergo_proc_thread_count 10 4 8 3 RefProcPhases.softWeakFinalRefsPhase
      = min (min (1 + 10 / 3) 4) 8 ∧
    ergo_proc_thread_count 10 4 8 3 RefProcPhases.keepAliveFinalRefsPhase = 4 :=
  ⟨by decide, by decide,
    (C8_mt_degree 10 4 8 3 RefProcPhases.softWeakFinalRefsPhase (by decide)).2.1 (by decide),
    (C8_mt_degree 10 4 8 3 RefProcPhases.keepAliveFinalRefsPhase (by decide)).1 rfl⟩

/-- C9 (counterexample): the claim asserts that calling `discover_reference`
while not in a discovery window is a fatal precondition violation rather than
a quiet not-discovered return.  On the code the check
`if (!_discovering_refs || !RegisterReferences) return false;` is an ordinary
early return, not an assertion: at the concrete idle state the call returns
`(state unchanged, false)` quietly. -/
theorem C9_counterexample :
    discover_reference exParams exStateIdle 7 RefType.weak = (exStateIdle, false) :=
  rfl

/-- C9 (amended): calling `discover_reference` while not in a discovery window
quietly returns a not-discovered result with the state unchanged, whereas a
nested `enable_discovery` call while discovery is already enabled is a fatal
precondition (assertion) violation. -/
theorem C9_discovery_window_checks (p : DiscoverParams) (st : DiscoverState)
    (obj : Nat) (rt : RefType) :
    (st.discoveringRefs = false → discover_reference p st obj rt = (st, false)) ∧
    (st.discoveringRefs = true → enable_discovery st = none) := by
  constructor
  · intro h
    unfold discover_reference
    rw [h]
    simp
  · intro h
    unfold enable_discovery
    rw [h]
    simp

theorem C9_witness :
    exStateIdle.discoveringRefs = false ∧
    discover_reference exParams exStateIdle 7 RefType.weak = (exStateIdle, false) ∧
    exStateDiscovered.discoveringRefs = true ∧
    enable_discovery exStateDiscovered = none :=
  ⟨rfl,
    (C9_discovery_window_checks exParams exStateIdle 7 RefType.weak).1 rfl,
    rfl,
    (C9_discovery_window_checks exParams exStateDiscovered 7 RefType.weak).2 rfl⟩

end RefProc
